import Mathlib

/-!
Verification of the Clipify repository (segment selection, transcript
windowing, time formatting, and the per-segment pipeline of `main.py`).

Python strings that undergo `.strip()` are modelled as `List Char`;
timestamps (Python floats used only as exact ordered numbers here) are
modelled as `ℚ`; Python `int` is modelled as `ℤ` where sign matters
(`num_segments`) and as `ℕ` where the source guarantees non-negativity.
Fallible Python code (code that can raise) is modelled with `Except`.
-/

namespace Clipify

/-- Python strings (as sequences of characters). -/
abbrev Text := List Char

/-- Model of Python `str.strip()`: remove leading and trailing whitespace. -/
def strip (t : Text) : Text :=
  ((t.dropWhile Char.isWhitespace).reverse.dropWhile Char.isWhitespace).reverse

/-- A transcript segment as consumed by the selector and the captioning
filter: the dict keys `text`, `start`, `end` of a Whisper segment.
(`end` is a Lean keyword, so the field is named `stop`.) -/
structure TSeg where
  text : Text
  start : ℚ
  stop : ℚ
deriving DecidableEq

/-- A word entry of a Whisper segment (`words` list): keys `text`, `start`, `end`. -/
structure TWord where
  text : Text
  start : ℚ
  stop : ℚ
deriving DecidableEq

/-- A Whisper segment as consumed by `split_transcript_by_timestamps`:
`text`, `start`, `end`, and the optional `words` list. -/
structure WSeg where
  text : Text
  start : ℚ
  stop : ℚ
  words : Option (List TWord)
deriving DecidableEq

/-! ### Model of Python `list.sort`

Python's `list.sort(key=..., reverse=...)` is a stable sort: elements with
equal keys keep their original relative order (also under `reverse=True`,
which reverses the comparison, not the list).  A stable sort's output is
determined by the comparison alone, so we model it by a stable insertion
sort: `pyInsert le a l` places `a` before the first element `b` of `l`
with `le a b = true`; with `le a b := k a ≤ k b` (ascending) or
`le a b := k b ≤ k a` (descending), an element inserted earlier in the
original list lands before later elements with an equal key. -/

def pyInsert (le : α → α → Bool) (a : α) : List α → List α
  | [] => [a]
  | b :: t => if le a b then a :: b :: t else b :: pyInsert le a t

/-- Stable sort modelling Python `list.sort` with comparison `le`. -/
def pySortStable (le : α → α → Bool) : List α → List α
  | [] => []
  | a :: t => pyInsert le a (pySortStable le t)

/-- `lst.sort(key=k)` (ascending, stable). -/
def keySortAsc [LinearOrder β] (k : α → β) (l : List α) : List α :=
  pySortStable (fun a b => decide (k a ≤ k b)) l

/-- `lst.sort(key=k, reverse=True)` (descending, stable). -/
def keySortDesc [LinearOrder β] (k : α → β) (l : List α) : List α :=
  pySortStable (fun a b => decide (k b ≤ k a)) l

/-- Model of the Python slice `lst[:n]` for an `int` `n`: a negative `n`
counts from the end (`lst[:len(lst)+n]`, clamped at `0`). -/
def pySlice (n : ℤ) (l : List α) : List α :=
  if n < 0 then l.take (l.length - n.natAbs) else l.take n.toNat

/-! ### `content_analysis.py`: segment selection -/

/-- The record built for each kept segment by both selection modes:
`text`, `start`, `end`, `duration`, and the ranking value (`text_length`
in `_find_important_segments_basic`, `original_score` in the spaCy mode
of `find_important_segments`). -/
structure ScoredSeg where
  text : Text
  start : ℚ
  stop : ℚ
  duration : ℚ
  score : ℕ
deriving DecidableEq

/-- The final projection `{'text': s['text'], 'start': s['start'], 'end': s['end']}`
shared by both selection modes. -/
def selected_out (s : ScoredSeg) : TSeg :=
  ⟨s.text, s.start, s.stop⟩

/-- `valid_segments` of `_find_important_segments_basic`: keep segments with
`duration >= min_segment_duration` and non-empty stripped text, recording
the stripped text and its length. -/
def valid_segments (ts : List TSeg) (minDur : ℚ) : List ScoredSeg :=
  ts.filterMap fun s =>
    let duration := s.stop - s.start
    if minDur ≤ duration ∧ strip s.text ≠ [] then
      some ⟨strip s.text, s.start, s.stop, duration, (strip s.text).length⟩
    else none

/-- `_find_important_segments_basic(transcription_segments, num_segments,
min_segment_duration)`: filter by duration and non-empty text, sort by text
length descending, truncate to `num_segments`, re-sort chronologically,
project to `{text, start, end}`. -/
def _find_important_segments_basic (ts : List TSeg) (numSegments : ℤ)
    (minDur : ℚ) : List TSeg :=
  if ts = [] then []
  else
    let valid := valid_segments ts minDur
    let ranked := keySortDesc ScoredSeg.score valid
    let selected := pySlice numSegments ranked
    let chron := keySortAsc ScoredSeg.start selected
    chron.map selected_out

/-- `scored_segments` of the spaCy path of `find_important_segments`:
segments with non-empty stripped text are scored by the number of
NOUN/PROPN/VERB tokens.  The spaCy pipeline is external, so the
POS-tag count is an oracle `posScore : Text → ℕ`.  (The source also skips
segments whose `start`/`end` keys are `None`; in this model every segment
carries both timestamps.) -/
def scored_segments (posScore : Text → ℕ) (ts : List TSeg) : List ScoredSeg :=
  ts.filterMap fun s =>
    let text := strip s.text
    if text = [] then none
    else some ⟨text, s.start, s.stop, s.stop - s.start, posScore text⟩

/-- `candidate_segments` of the spaCy path: filter by minimum duration. -/
def candidate_segments (posScore : Text → ℕ) (ts : List TSeg) (minDur : ℚ) :
    List ScoredSeg :=
  (scored_segments posScore ts).filter fun s => decide (minDur ≤ s.duration)

/-- The spaCy path of `find_important_segments` (lines 137-180): score,
filter by duration, sort by score descending, truncate, sort by start. -/
def find_important_segments_spacy (posScore : Text → ℕ) (ts : List TSeg)
    (numSegments : ℤ) (minDur : ℚ) : List TSeg :=
  if ts = [] then []
  else
    let candidates := candidate_segments posScore ts minDur
    if candidates = [] then []
    else
      let ranked := keySortDesc ScoredSeg.score candidates
      let top := pySlice numSegments ranked
      let chron := keySortAsc ScoredSeg.start top
      chron.map selected_out

/-- `find_important_segments`: uses the spaCy scorer when the model loads
(`spacyOk = true`) and falls back to `_find_important_segments_basic`
otherwise. -/
def find_important_segments (spacyOk : Bool) (posScore : Text → ℕ)
    (ts : List TSeg) (numSegments : ℤ) (minDur : ℚ) : List TSeg :=
  if spacyOk then find_important_segments_spacy posScore ts numSegments minDur
  else _find_important_segments_basic ts numSegments minDur

/-! ### `utils.py`: time formatting and parsing -/

/-- The decimal digit character for `n < 10`. -/
def digitChar (n : ℕ) : Char := Char.ofNat (48 + n)

/-- Decimal representation of a natural number, as Python `str`/f-string
formatting produces it (no sign, no padding). -/
def natDigits (n : ℕ) : Text :=
  if _h : n < 10 then [digitChar n]
  else natDigits (n / 10) ++ [digitChar (n % 10)]
decreasing_by exact Nat.div_lt_self (by omega) (by omega)

/-- Python f-string formatting `f"{n:02d}"` for a natural number: pad to
two characters with a leading zero. -/
def pad2 (n : ℕ) : Text :=
  if n < 10 then '0' :: natDigits n else natDigits n

/-- `format_time(seconds)` of `utils.py`, for a non-negative integer number
of seconds (the scope of the round-trip claim): `MM:SS`, or `H:MM:SS` when
a full hour is reached. -/
def format_time (seconds : ℕ) : Text :=
  let minutes := seconds / 60
  let secs := seconds % 60
  let hours := minutes / 60
  let mins := minutes % 60
  if hours > 0 then
    natDigits hours ++ ':' :: pad2 mins ++ ':' :: pad2 secs
  else
    natDigits mins ++ ':' :: pad2 secs

/-- Model of Python `str.split(sep)` for a one-character separator: empty
pieces are kept, and the result is always non-empty. -/
def splitOnChar (c : Char) : Text → List Text
  | [] => [[]]
  | x :: rest =>
    if x = c then [] :: splitOnChar c rest
    else
      match splitOnChar c rest with
      | [] => [[x]]
      | p :: ps => (x :: p) :: ps

/-- Is `c` a decimal digit? -/
def isDigitB (c : Char) : Bool := decide (48 ≤ c.toNat) && decide (c.toNat ≤ 57)

/-- Numeric value of a digit character. -/
def digitVal (c : Char) : ℕ := c.toNat - 48

/-- Parse a non-empty all-digit string to a natural number (the digits
part of Python `int()`; leading zeros are accepted). -/
def parseDigits (t : Text) : Except String ℕ :=
  if t ≠ [] ∧ t.all isDigitB then
    .ok (t.foldl (fun acc c => 10 * acc + digitVal c) 0)
  else .error "ValueError: invalid literal for int() with base 10"

/-- Model of Python `int(s)`: strip whitespace, optional leading sign, then
a non-empty digit string; raises `ValueError` otherwise (an empty string
fails inside `parseDigits`). -/
def pyInt (t : Text) : Except String ℤ :=
  if (strip t).head? = some '-' then
    (parseDigits (strip t).tail).map (fun n => -(n : ℤ))
  else if (strip t).head? = some '+' then
    (parseDigits (strip t).tail).map (fun n => (n : ℤ))
  else (parseDigits (strip t)).map (fun n => (n : ℤ))

/-- `convert_time_to_seconds(time_str)` of `utils.py`: split on `':'`;
three parts are `H:M:S`, two parts are `M:S`, anything else raises
`ValueError` (as does a non-numeric part, via `int()`). -/
def convert_time_to_seconds (t : Text) : Except String ℤ :=
  match splitOnChar ':' t with
  | [h, m, s] => do
    let hv ← pyInt h
    let mv ← pyInt m
    let sv ← pyInt s
    pure (hv * 3600 + mv * 60 + sv)
  | [m, s] => do
    let mv ← pyInt m
    let sv ← pyInt s
    pure (mv * 60 + sv)
  | _ => .error "ValueError: Invalid time format. Expected HH:MM:SS or MM:SS."

/-! ### `content_analysis.py`: `split_transcript_by_timestamps`

`content_analysis.py` line 4 comments out
`from .utils import format_time  # format_time is not used`, yet
`split_transcript_by_timestamps` calls `format_time` on lines 52, 65
and 78.  In the module as shipped the name `format_time` is therefore
undefined, and every window emission raises
`NameError: name 'format_time' is not defined`.  The model reflects this:
producing a window's time string is a failing computation. -/

/-- The `format_time` name as resolved inside `content_analysis.py`: the
line importing it is commented out, so every call raises `NameError`. -/
def ca_format_time (_t : ℚ) : Except String Text :=
  .error "NameError: name 'format_time' is not defined"

/-- An emitted transcript window: the dict
`{"time": f"{...} - {...}", "text": "".join(texts)}`. -/
structure TranscriptWindow where
  time : Text
  text : Text
deriving DecidableEq

/-- The loop state of `split_transcript_by_timestamps`:
`segments_text_time`, `current_segment_texts`,
`current_segment_start_time`, `last_word_end_time`. -/
structure WindowState where
  out : List TranscriptWindow
  curTexts : List Text
  curStart : Option ℚ
  lastEnd : ℚ
deriving DecidableEq

/-- Build one window dict (lines 51-54 / 64-67 / 77-80): both time stamps
go through the unresolved `format_time`. -/
def emitWindow (a b : ℚ) (texts : List Text) : Except String TranscriptWindow := do
  let t1 ← ca_format_time a
  let t2 ← ca_format_time b
  pure ⟨t1 ++ (" - ".data) ++ t2, texts.flatten⟩

/-- One iteration of the word-level loop (lines 39-59). -/
def stepWord (interval : ℚ) (st : WindowState) (w : TWord) :
    Except String WindowState := do
  let curStart := st.curStart.getD w.start
  if (w.start - st.lastEnd > interval / 2 ∧ st.lastEnd ≠ 0) ∨
      (w.stop - curStart > interval) then
    if st.curTexts ≠ [] then do
      let win ← emitWindow curStart st.lastEnd st.curTexts
      pure ⟨st.out ++ [win], [w.text], some w.start, w.stop⟩
    else
      pure ⟨st.out, st.curTexts ++ [w.text], some w.start, w.stop⟩
  else
    pure ⟨st.out, st.curTexts ++ [w.text], some curStart, w.stop⟩

/-- One iteration of the segment-level fallback branch (lines 60-72). -/
def stepSegmentLevel (interval : ℚ) (st : WindowState) (seg : WSeg) :
    Except String WindowState := do
  let curStart := st.curStart.getD seg.start
  if (seg.start - st.lastEnd > interval / 2 ∧ st.lastEnd ≠ 0) ∨
      (seg.stop - curStart > interval) then
    if st.curTexts ≠ [] then do
      let win ← emitWindow curStart
        (if st.lastEnd > curStart then st.lastEnd else seg.start) st.curTexts
      pure ⟨st.out ++ [win], [seg.text], some seg.start, seg.stop⟩
    else
      pure ⟨st.out, st.curTexts ++ [seg.text], some seg.start, seg.stop⟩
  else
    pure ⟨st.out, st.curTexts ++ [seg.text], some curStart, seg.stop⟩

/-- One iteration of the outer segment loop (lines 24-72): set the window
start on the first segment, then prefer word-level timing when the segment
carries `words`. -/
def stepSegment (interval : ℚ) (st : WindowState) (seg : WSeg) :
    Except String WindowState :=
  let st := { st with curStart := some (st.curStart.getD seg.start) }
  match seg.words with
  | some ws => ws.foldlM (stepWord interval) st
  | none => stepSegmentLevel interval st seg

/-- `split_transcript_by_timestamps(transcription_result, interval)` for a
transcription result that carries a `segments` list (a result without one
returns `[]` on line 22 before any of this runs). -/
def split_transcript_by_timestamps (segments : List WSeg) (interval : ℚ) :
    Except String (List TranscriptWindow) := do
  let st ← segments.foldlM (stepSegment interval) ⟨[], [], none, 0⟩
  if st.curTexts ≠ [] then do
    let win ← emitWindow (st.curStart.getD 0) st.lastEnd st.curTexts
    pure (st.out ++ [win])
  else
    pure st.out

/-! ### `main.py`: stages 5 and 6 of `main_workflow`

External effects (ffmpeg cuts, aspect-ratio conversion, caption rendering,
`os.path.exists` checks) are oracles supplied in an environment; they are
keyed by the segment's stage-5 enumeration index, which is baked into
every derived file name.  File names themselves are abstracted to the
constructor of the stage that produced them. -/

/-- The file paths produced for one segment: the raw cut in `raw_clips/`,
the `_formatted.mp4` aspect-ratio conversion, and the `_captioned.mp4`
result. -/
inductive ClipPath where
  | raw (i : ℕ)
  | formatted (i : ℕ)
  | captioned (i : ℕ)
deriving DecidableEq

/-- The per-segment accumulator of `main_workflow`: the selected segment's
dict extended with `raw_clip_path` and `final_clip_path` as stages
succeed.  `idx` is the stage-5 enumeration index (part of every file
name). -/
structure ClipRecord where
  seg : TSeg
  idx : ℕ
  rawClipPath : Option ClipPath
  finalClipPath : Option ClipPath
deriving DecidableEq

/-- Outcomes of the external calls made by stages 5 and 6. -/
structure OrchEnv where
  /-- `video_processing.extract_video_segments(...)` returned `True`. -/
  cutOk : ℕ → TSeg → Bool
  /-- `os.path.exists(raw_clip_input_path)` at the top of stage 6. -/
  rawExists : ℕ → Bool
  /-- `video_processing.convert_video_aspect_ratio(...)` returned a path. -/
  convertOk : ℕ → Bool
  /-- `os.path.exists(captioned_output_path)` after `add_captions_to_video`. -/
  captionedExists : ℕ → Bool
  /-- `args.skip_captioning`. -/
  skipCaptioning : Bool

/-- Stage 5 (lines 139-171): cut each selected segment; on success record
`raw_clip_path` and keep the record, otherwise (failure or exception) drop
it and continue with the next segment. -/
def stage5 (env : OrchEnv) (selected : List TSeg) : List ClipRecord :=
  selected.enum.filterMap fun p =>
    if env.cutOk p.1 p.2 then some ⟨p.2, p.1, some (.raw p.1), none⟩ else none

/-- The caption set built for one record (lines 216-238): keep the original
Whisper segments overlapping the record's time range, rebase their
timestamps to the record's start, and keep only entries with non-empty
stripped text and positive rebased duration. -/
def adjusted_transcription_segments (recStart recStop : ℚ)
    (transcript : List TSeg) : List TSeg :=
  (transcript.filter fun ws =>
      decide (ws.start < recStop) && decide (ws.stop > recStart)).filterMap
    fun ws =>
      let text := strip ws.text
      if text = [] then none
      else
        let newStart := max 0 (ws.start - recStart)
        let newStop := ws.stop - recStart
        if newStop > newStart then some ⟨text, newStart, newStop⟩ else none

/-- Stage 6 body for one record (lines 184-272): skip records without an
existing raw clip; drop the record if aspect-ratio conversion fails;
otherwise caption it (unless `skip_captioning` or the caption set is
empty), falling back to the uncaptioned formatted file when the captioned
output does not appear; finally store `final_clip_path`. -/
def stage6Step (env : OrchEnv) (transcript : List TSeg) (r : ClipRecord) :
    Option ClipRecord :=
  if r.rawClipPath.isNone ∨ env.rawExists r.idx = false then none
  else if env.convertOk r.idx then
    let formattedPath := ClipPath.formatted r.idx
    let current :=
      if env.skipCaptioning then formattedPath
      else
        if adjusted_transcription_segments r.seg.start r.seg.stop
            transcript = [] then formattedPath
        else if env.captionedExists r.idx then ClipPath.captioned r.idx
        else formattedPath
    some { r with finalClipPath := some current }
  else none

/-- Stage 6 over the surviving records. -/
def stage6 (env : OrchEnv) (transcript : List TSeg)
    (records : List ClipRecord) : List ClipRecord :=
  records.filterMap (stage6Step env transcript)

/-- `final_segment_paths` (line 276): the `final_clip_path` of every record
that survived stages 5 and 6, in order. -/
def main_workflow_stage56 (env : OrchEnv) (transcript : List TSeg)
    (selected : List TSeg) : List ClipPath :=
  (stage6 env transcript (stage5 env selected)).filterMap (·.finalClipPath)

/-- The original stage-5 index carried by a path. -/
def ClipPath.idx : ClipPath → ℕ
  | .raw i => i
  | .formatted i => i
  | .captioned i => i

/-- Modelled from the spec: the caption-set description of §4.4 / claim C5,
"the subset of original transcript segments whose time range overlaps
`[record.start, record.end]`" (two time ranges overlap when they share
more than a boundary point), "re-based" (`new_start = max(0, orig_start -
record.start)`, `new_end = orig_end - record.start`), "segments with
non-positive rebased duration or empty text are dropped".  Stated
compositionally for comparison with the code's
`adjusted_transcription_segments`. -/
def caption_set_spec (recStart recStop : ℚ) (transcript : List TSeg) :
    List TSeg :=
  ((transcript.filter fun ws =>
      decide (ws.start < recStop) && decide (recStart < ws.stop)).map
    fun ws =>
      ⟨strip ws.text, max 0 (ws.start - recStart), ws.stop - recStart⟩).filter
    fun c => decide (c.start < c.stop) && decide (c.text ≠ [])

/-! ## Theorems

### Generic facts about the stable-sort model -/

theorem length_pyInsert (le : α → α → Bool) (a : α) (l : List α) :
    (pyInsert le a l).length = l.length + 1 := by
  induction l with
  | nil => rfl
  | cons b t ih =>
    simp only [pyInsert]
    split
    · simp
    · simp [ih]

theorem length_pySortStable (le : α → α → Bool) (l : List α) :
    (pySortStable le l).length = l.length := by
  induction l with
  | nil => rfl
  | cons a t ih => simp [pySortStable, length_pyInsert, ih]

theorem mem_pyInsert (le : α → α → Bool) (a x : α) (l : List α) :
    x ∈ pyInsert le a l ↔ x = a ∨ x ∈ l := by
  induction l with
  | nil => simp [pyInsert]
  | cons b t ih =>
    simp only [pyInsert]
    split
    · simp [List.mem_cons]
    · simp only [List.mem_cons, ih]
      tauto

theorem mem_pySortStable (le : α → α → Bool) (x : α) (l : List α) :
    x ∈ pySortStable le l ↔ x ∈ l := by
  induction l with
  | nil => simp [pySortStable]
  | cons a t ih => simp [pySortStable, mem_pyInsert, ih]

theorem pairwise_pyInsert (le : α → α → Bool) (Q : α → α → Prop)
    (htrans : Transitive Q) (a : α) (l : List α) (hl : l.Pairwise Q)
    (hf : ∀ c ∈ l, le a c = false → Q c a)
    (ht : ∀ c ∈ l, le a c = true → Q a c) :
    (pyInsert le a l).Pairwise Q := by
  induction l with
  | nil => simp [pyInsert]
  | cons b t ih =>
    simp only [pyInsert]
    cases hab : le a b with
    | true =>
      simp only [if_pos rfl]
      have hab2 : Q a b := ht b (List.mem_cons_self b t) hab
      refine List.Pairwise.cons ?_ hl
      intro x hx
      rcases List.mem_cons.mp hx with hx | hx
      · exact hx ▸ hab2
      · exact htrans hab2 (List.rel_of_pairwise_cons hl hx)
    | false =>
      simp only [Bool.false_eq_true, if_false]
      refine List.Pairwise.cons ?_ ?_
      · intro x hx
        rcases (mem_pyInsert le a x t).mp hx with hx | hx
        · exact hx ▸ hf b (List.mem_cons_self b t) hab
        · exact List.rel_of_pairwise_cons hl hx
      · exact ih hl.tail (fun c hc => hf c (List.mem_cons_of_mem b hc))
          (fun c hc => ht c (List.mem_cons_of_mem b hc))

theorem sorted_pySortStable (le : α → α → Bool)
    (htot : ∀ a b, le a b = false → le b a = true)
    (htrans : ∀ a b c, le a b = true → le b c = true → le a c = true)
    (l : List α) : (pySortStable le l).Pairwise (fun a b => le a b = true) := by
  induction l with
  | nil => simp [pySortStable]
  | cons a t ih =>
    simp only [pySortStable]
    refine pairwise_pyInsert le _ ?_ a _ ih ?_ ?_
    · intro x y z hxy hyz
      exact htrans x y z hxy hyz
    · intro c _ hc
      exact htot a c hc
    · intro c _ hc
      exact hc

theorem filter_pyInsert_neg (le : α → α → Bool) (p : α → Bool) (a : α)
    (l : List α) (hpa : p a = false) :
    (pyInsert le a l).filter p = l.filter p := by
  induction l with
  | nil => simp [pyInsert, hpa]
  | cons b t ih =>
    simp only [pyInsert]
    split
    · simp [List.filter_cons, hpa]
    · simp [List.filter_cons, ih]

theorem filter_pyInsert_pos (le : α → α → Bool) (p : α → Bool) (a : α)
    (l : List α) (hpa : p a = true)
    (hl : ∀ b ∈ l, p b = true → le a b = true) :
    (pyInsert le a l).filter p = a :: l.filter p := by
  induction l with
  | nil => simp [pyInsert, hpa]
  | cons b t ih =>
    simp only [pyInsert]
    cases hab : le a b with
    | true => simp [List.filter_cons, hpa]
    | false =>
      have hpb : p b = false := by
        cases hpb : p b with
        | false => rfl
        | true =>
          have := hl b (List.mem_cons_self b t) hpb
          rw [this] at hab
          cases hab
      simp only [Bool.false_eq_true, if_false, List.filter_cons, hpb,
        Bool.false_eq_true, if_false]
      exact ih (fun c hc => hl c (List.mem_cons_of_mem b hc))

theorem filter_pySortStable (le : α → α → Bool) (p : α → Bool) (l : List α)
    (h : (l.filter p).Pairwise (fun a b => le a b = true)) :
    (pySortStable le l).filter p = l.filter p := by
  induction l with
  | nil => rfl
  | cons a t ih =>
    simp only [pySortStable]
    cases hpa : p a with
    | false =>
      rw [filter_pyInsert_neg le p a _ hpa, List.filter_cons_of_neg (by simp [hpa])]
      refine ih ?_
      rwa [List.filter_cons_of_neg (by simp [hpa])] at h
    | true =>
      rw [List.filter_cons_of_pos (by simp [hpa])] at h ⊢
      rw [filter_pyInsert_pos le p a _ hpa ?_]
      · rw [ih h.tail]
      · intro b hb hpb
        have hbt : b ∈ t := (mem_pySortStable le b t).mp hb
        have hbf : b ∈ t.filter p := List.mem_filter.mpr ⟨hbt, hpb⟩
        exact List.rel_of_pairwise_cons h hbf

theorem sorted_filter_unique [LinearOrder β] (kt : α → β) :
    ∀ (S T : List α), S.Pairwise (fun a b => kt a ≤ kt b) →
      T.Pairwise (fun a b => kt a ≤ kt b) →
      (∀ c, S.filter (fun x => decide (kt x = c)) =
            T.filter (fun x => decide (kt x = c))) →
      S = T
  | [], [], _, _, _ => rfl
  | [], t :: T2, _, _, hf => by
    have h := (hf (kt t)).symm
    rw [List.filter_nil, List.filter_cons_of_pos (by simp)] at h
    simp at h
  | s :: S2, [], _, _, hf => by
    have h := hf (kt s)
    rw [List.filter_nil, List.filter_cons_of_pos (by simp)] at h
    simp at h
  | s :: S2, t :: T2, hS, hT, hf => by
    have hfs : (s :: S2).filter (fun x => decide (kt x = kt s)) =
        s :: S2.filter (fun x => decide (kt x = kt s)) :=
      List.filter_cons_of_pos (by simp)
    have hft : (t :: T2).filter (fun x => decide (kt x = kt t)) =
        t :: T2.filter (fun x => decide (kt x = kt t)) :=
      List.filter_cons_of_pos (by simp)
    have hts : kt t ≤ kt s := by
      have hmem : s ∈ (t :: T2).filter (fun x => decide (kt x = kt s)) := by
        rw [← hf (kt s), hfs]
        exact List.mem_cons_self _ _
      rcases List.mem_cons.mp (List.mem_filter.mp hmem).1 with he | he
      · exact le_of_eq (congrArg kt he.symm)
      · exact List.rel_of_pairwise_cons hT he
    have hst2 : kt s ≤ kt t := by
      have hmem : t ∈ (s :: S2).filter (fun x => decide (kt x = kt t)) := by
        rw [hf (kt t), hft]
        exact List.mem_cons_self _ _
      rcases List.mem_cons.mp (List.mem_filter.mp hmem).1 with he | he
      · exact le_of_eq (congrArg kt he.symm)
      · exact List.rel_of_pairwise_cons hS he
    have hst : kt s = kt t := le_antisymm hst2 hts
    have h1 := hf (kt s)
    have hftpos : (t :: T2).filter (fun x => decide (kt x = kt s)) =
        t :: T2.filter (fun x => decide (kt x = kt s)) :=
      List.filter_cons_of_pos (by simp [hst])
    rw [hfs, hftpos] at h1
    injection h1 with hhead htail0
    have htail : ∀ c, S2.filter (fun x => decide (kt x = c)) =
        T2.filter (fun x => decide (kt x = c)) := by
      intro c
      by_cases hc : c = kt s
      · exact hc ▸ htail0
      · have h2 := hf c
        have hsneg : (s :: S2).filter (fun x => decide (kt x = c)) =
            S2.filter (fun x => decide (kt x = c)) :=
          List.filter_cons_of_neg (by
            simp only [decide_eq_true_eq]
            exact fun h => hc h.symm)
        have htneg : (t :: T2).filter (fun x => decide (kt x = c)) =
            T2.filter (fun x => decide (kt x = c)) :=
          List.filter_cons_of_neg (by
            simp only [decide_eq_true_eq]
            rw [← hst]
            exact fun h => hc h.symm)
        rw [hsneg, htneg] at h2
        exact h2
    rw [hhead, sorted_filter_unique kt S2 T2 hS.tail hT.tail htail]

theorem pyInsert_map (le : α → α → Bool) (le2 : β → β → Bool) (f : β → α)
    (hle : ∀ a b, le (f a) (f b) = le2 a b) (a : β) (l : List β) :
    pyInsert le (f a) (l.map f) = (pyInsert le2 a l).map f := by
  induction l with
  | nil => rfl
  | cons b t ih =>
    simp only [List.map_cons, pyInsert, hle]
    split
    · simp
    · simp [ih]

theorem pySortStable_map (le : α → α → Bool) (le2 : β → β → Bool) (f : β → α)
    (hle : ∀ a b, le (f a) (f b) = le2 a b) (l : List β) :
    pySortStable le (l.map f) = (pySortStable le2 l).map f := by
  induction l with
  | nil => rfl
  | cons b t ih => simp [pySortStable, ih, pyInsert_map le le2 f hle]

theorem pairwise_keySortAsc_of_desc [LinearOrder β] [LinearOrder γ]
    (ks : α → β) (kt : α → γ) (M : List α)
    (hM : M.Pairwise fun a b => ks b ≤ ks a) :
    (keySortAsc kt M).Pairwise
      (fun a b => kt a < kt b ∨ (kt a = kt b ∧ ks b ≤ ks a)) := by
  induction M with
  | nil => simp [keySortAsc, pySortStable]
  | cons a t ih =>
    simp only [keySortAsc, pySortStable]
    refine pairwise_pyInsert _ _ ?_ a _ (ih hM.tail) ?_ ?_
    · intro x y z hxy hyz
      rcases hxy with hxy | ⟨hxy1, hxy2⟩
      · rcases hyz with hyz | ⟨hyz1, _⟩
        · exact Or.inl (hxy.trans hyz)
        · exact Or.inl (hxy.trans_eq hyz1)
      · rcases hyz with hyz | ⟨hyz1, hyz2⟩
        · exact Or.inl (hxy1 ▸ hyz)
        · exact Or.inr ⟨hxy1.trans hyz1, hyz2.trans hxy2⟩
    · intro c _ hc
      simp only [decide_eq_false_iff_not, not_le] at hc
      exact Or.inl hc
    · intro c hc hle
      simp only [decide_eq_true_eq] at hle
      rcases lt_or_eq_of_le hle with h | h
      · exact Or.inl h
      · refine Or.inr ⟨h, ?_⟩
        have hct : c ∈ t := (mem_pySortStable _ c t).mp hc
        exact List.rel_of_pairwise_cons hM hct

theorem double_sort_eq [LinearOrder β] [LinearOrder γ] (ks : α → β)
    (kt : α → γ) (L : List α)
    (hL : L.Pairwise fun a b => kt a < kt b ∨ (kt a = kt b ∧ ks b ≤ ks a)) :
    keySortAsc kt (keySortDesc ks L) = L := by
  refine sorted_filter_unique kt _ _ ?_ ?_ ?_
  · have h := sorted_pySortStable (fun a b => decide (kt a ≤ kt b))
      (fun a b hab => by
        simp only [decide_eq_false_iff_not, not_le] at hab
        simpa using hab.le)
      (fun a b c hab hbc => by
        simp only [decide_eq_true_eq] at hab hbc ⊢
        exact hab.trans hbc)
      (keySortDesc ks L)
    exact h.imp (by intro a b hab; simpa using hab)
  · exact hL.imp (by
      intro a b hab
      rcases hab with h | ⟨h, _⟩
      · exact h.le
      · exact h.le)
  · intro c
    have h1 : (keySortAsc kt (keySortDesc ks L)).filter
        (fun x => decide (kt x = c)) =
        (keySortDesc ks L).filter (fun x => decide (kt x = c)) := by
      refine filter_pySortStable _ _ _ ?_
      refine List.pairwise_of_forall_mem_list ?_
      intro a ha b hb
      have ha2 := (List.mem_filter.mp ha).2
      have hb2 := (List.mem_filter.mp hb).2
      simp only [decide_eq_true_eq] at ha2 hb2 ⊢
      rw [ha2, hb2]
    have h2 : (keySortDesc ks L).filter (fun x => decide (kt x = c)) =
        L.filter (fun x => decide (kt x = c)) := by
      refine filter_pySortStable _ _ _ ?_
      have hsub : (L.filter (fun x => decide (kt x = c))).Pairwise
          (fun a b => kt a < kt b ∨ (kt a = kt b ∧ ks b ≤ ks a)) :=
        hL.sublist (List.filter_sublist L)
      refine hsub.imp_of_mem ?_
      intro a b ha hb hab
      have ha2 := (List.mem_filter.mp ha).2
      have hb2 := (List.mem_filter.mp hb).2
      simp only [decide_eq_true_eq] at ha2 hb2
      rcases hab with h | ⟨_, h⟩
      · exact absurd (ha2.trans hb2.symm) (ne_of_lt h)
      · simpa using h
    rw [h1, h2]

/-! ### Facts about `strip` -/

theorem dropWhile_head_false (p : α → Bool) :
    ∀ (l t : List α) (a : α), l.dropWhile p = a :: t → p a = false := by
  intro l
  induction l with
  | nil => intro t a h; simp [List.dropWhile] at h
  | cons b u ih =>
    intro t a h
    rw [List.dropWhile_cons] at h
    split at h
    · exact ih t a h
    · next hb =>
      cases h
      simpa using hb

theorem dropWhile_eq_self_of_head (p : α → Bool) (l : List α)
    (h : ∀ t a, l = a :: t → p a = false) : l.dropWhile p = l := by
  cases l with
  | nil => rfl
  | cons a t =>
    rw [List.dropWhile_cons]
    simp [h t a rfl]

theorem dropWhile_idem (p : α → Bool) (l : List α) :
    (l.dropWhile p).dropWhile p = l.dropWhile p := by
  refine dropWhile_eq_self_of_head p _ ?_
  intro t a h
  exact dropWhile_head_false p l t a h

theorem dropWhile_eq_self_of_all (p : α → Bool) (l : List α)
    (h : ∀ a ∈ l, p a = false) : l.dropWhile p = l := by
  refine dropWhile_eq_self_of_head p _ ?_
  intro t a he
  exact h a (he ▸ List.mem_cons_self a t)

/-- The right-trim half of `strip`: drop a trailing run of whitespace. -/
theorem rd_prefix (p : α → Bool) (l : List α) :
    ∃ w, l = (l.reverse.dropWhile p).reverse ++ w := by
  refine ⟨(l.reverse.takeWhile p).reverse, ?_⟩
  have h := List.takeWhile_append_dropWhile p l.reverse
  have h2 := congrArg List.reverse h
  rw [List.reverse_append, List.reverse_reverse] at h2
  exact h2.symm

theorem strip_no_ws (t : Text) :
    ∀ u a, strip t = a :: u → a.isWhitespace = false := by
  intro u a h
  unfold strip at h
  set d := t.dropWhile Char.isWhitespace with hd
  rcases hdd : d with _ | ⟨b, d2⟩
  · rw [hdd] at h
    simp at h
  · have hb : b.isWhitespace = false := dropWhile_head_false _ t d2 b (hd ▸ hdd)
    rcases rd_prefix Char.isWhitespace d with ⟨w, hw⟩
    rw [hdd] at hw
    rw [hdd] at h
    rcases hr : (List.reverse (b :: d2)).dropWhile Char.isWhitespace with _ | ⟨c, r2⟩
    · rw [hr] at h
      simp at h
    · rw [hr] at h hw
      have : c :: r2 ≠ ([] : Text) := by simp
      have hh : (List.reverse (c :: r2)).head? = some a := by
        rw [h]
        rfl
      have hw2 : ((List.reverse (c :: r2)) ++ w).head? = some b := by
        rw [← hw]
        rfl
      have hne : List.reverse (c :: r2) ≠ [] := by simp
      rw [List.head?_append_of_ne_nil _ hne] at hw2
      rw [hh] at hw2
      cases hw2
      exact hb

theorem strip_strip (t : Text) : strip (strip t) = strip t := by
  rcases hs : strip t with _ | ⟨a, u⟩
  · rfl
  · have ha : a.isWhitespace = false := strip_no_ws t u a hs
    unfold strip
    have h1 : (a :: u).dropWhile Char.isWhitespace = a :: u := by
      rw [List.dropWhile_cons]
      simp [ha]
    rw [h1]
    have h2 : (a :: u).reverse.dropWhile Char.isWhitespace = (a :: u).reverse := by
      refine dropWhile_eq_self_of_head _ _ ?_
      intro t2 b hb
      -- the reversed list ends with `a`; if dropping whitespace from the
      -- reversed list could remove anything, `strip t` would have had a
      -- whitespace head, contradicting `strip_no_ws` applied to `t`
      unfold strip at hs
      rcases rd_prefix Char.isWhitespace (t.dropWhile Char.isWhitespace) with ⟨w, hw⟩
      by_cases hbws : b.isWhitespace = false
      · exact hbws
      · exfalso
        simp only [Bool.not_eq_false] at hbws
        -- `b` is the head of `(a :: u).reverse`, i.e. the last of `a :: u`;
        -- but `a :: u = strip t` is the reverse of a `dropWhile` result,
        -- whose head is not whitespace
        have hrev : (a :: u).reverse = b :: t2 := hb
        have : ((t.dropWhile Char.isWhitespace).reverse.dropWhile
            Char.isWhitespace) = (a :: u).reverse := by
          have h3 := congrArg List.reverse hs
          rwa [List.reverse_reverse] at h3
        rw [hrev] at this
        have := dropWhile_head_false Char.isWhitespace _ _ _ this
        rw [hbws] at this
        cases this
    rw [h2]
    simp

theorem strip_of_no_ws (t : Text) (h : ∀ c ∈ t, c.isWhitespace = false) :
    strip t = t := by
  unfold strip
  rw [dropWhile_eq_self_of_all _ _ h, dropWhile_eq_self_of_all _ _ (by
    intro a ha
    exact h a (List.mem_reverse.mp ha))]
  simp

/-! ### Facts about the selection chain shared by both modes -/

theorem pySlice_nonneg (n : ℤ) (hn : 0 ≤ n) (l : List α) :
    pySlice n l = l.take n.toNat := by
  unfold pySlice
  rw [if_neg (by omega)]

theorem pySlice_sublist (n : ℤ) (l : List α) :
    List.Sublist (pySlice n l) l := by
  unfold pySlice
  split
  · exact List.take_sublist _ _
  · exact List.take_sublist _ _

theorem length_pySlice_le (n : ℤ) (hn : 0 ≤ n) (l : List α) :
    ((pySlice n l).length : ℤ) ≤ n := by
  rw [pySlice_nonneg n hn]
  have h1 : (l.take n.toNat).length ≤ n.toNat := by
    rw [List.length_take]
    omega
  omega

theorem filterMap_eq_map_of_forall (f : α → Option β) (g : α → β)
    (l : List α) (h : ∀ a ∈ l, f a = some (g a)) : l.filterMap f = l.map g := by
  induction l with
  | nil => rfl
  | cons a t ih =>
    rw [List.filterMap_cons, h a (List.mem_cons_self a t), List.map_cons,
      ih (fun b hb => h b (List.mem_cons_of_mem a hb))]

theorem keySortDesc_stable_filter [LinearOrder β] (k : α → β) (l : List α)
    (c : β) :
    (keySortDesc k l).filter (fun x => decide (k x = c)) =
      l.filter (fun x => decide (k x = c)) := by
  refine filter_pySortStable _ _ _ ?_
  refine List.pairwise_of_forall_mem_list ?_
  intro a ha b hb
  have ha2 := (List.mem_filter.mp ha).2
  have hb2 := (List.mem_filter.mp hb).2
  simp only [decide_eq_true_eq] at ha2 hb2 ⊢
  rw [ha2, hb2]

theorem keySortAsc_stable_filter [LinearOrder β] (k : α → β) (l : List α)
    (c : β) :
    (keySortAsc k l).filter (fun x => decide (k x = c)) =
      l.filter (fun x => decide (k x = c)) := by
  refine filter_pySortStable _ _ _ ?_
  refine List.pairwise_of_forall_mem_list ?_
  intro a ha b hb
  have ha2 := (List.mem_filter.mp ha).2
  have hb2 := (List.mem_filter.mp hb).2
  simp only [decide_eq_true_eq] at ha2 hb2 ⊢
  rw [ha2, hb2]

theorem sorted_keySortAsc [LinearOrder β] (k : α → β) (l : List α) :
    (keySortAsc k l).Pairwise (fun a b => k a ≤ k b) := by
  have h := sorted_pySortStable (fun a b => decide (k a ≤ k b))
    (fun a b hab => by
      simp only [decide_eq_false_iff_not, not_le] at hab
      simpa using hab.le)
    (fun a b c hab hbc => by
      simp only [decide_eq_true_eq] at hab hbc ⊢
      exact hab.trans hbc) l
  exact h.imp (by intro a b hab; simpa using hab)

theorem sorted_keySortDesc [LinearOrder β] (k : α → β) (l : List α) :
    (keySortDesc k l).Pairwise (fun a b => k b ≤ k a) := by
  have h := sorted_pySortStable (fun a b => decide (k b ≤ k a))
    (fun a b hab => by
      simp only [decide_eq_false_iff_not, not_le] at hab
      simpa using hab.le)
    (fun a b c hab hbc => by
      simp only [decide_eq_true_eq] at hab hbc ⊢
      exact hbc.trans hab) l
  exact h.imp (by intro a b hab; simpa using hab)

/-- Everything `valid_segments` records about its members. -/
theorem valid_segments_spec (ts : List TSeg) (d : ℚ) (y : ScoredSeg)
    (hy : y ∈ valid_segments ts d) :
    strip y.text = y.text ∧ y.text ≠ [] ∧ y.score = y.text.length ∧
      y.duration = y.stop - y.start ∧ d ≤ y.duration ∧
      y.duration = y.stop - y.start := by
  unfold valid_segments at hy
  rcases List.mem_filterMap.mp hy with ⟨s, _, hs⟩
  simp only at hs
  split at hs
  · next hcond =>
    cases hs
    refine ⟨strip_strip s.text, hcond.2, rfl, rfl, hcond.1, rfl⟩
  · cases hs

/-- Everything `candidate_segments` records about its members. -/
theorem candidate_segments_spec (posScore : Text → ℕ) (ts : List TSeg) (d : ℚ)
    (y : ScoredSeg) (hy : y ∈ candidate_segments posScore ts d) :
    strip y.text = y.text ∧ y.text ≠ [] ∧ y.score = posScore y.text ∧
      y.duration = y.stop - y.start ∧ d ≤ y.duration := by
  unfold candidate_segments at hy
  have hmem := List.mem_filter.mp hy
  have hdur : d ≤ y.duration := by simpa using hmem.2
  have hy2 := hmem.1
  unfold scored_segments at hy2
  rcases List.mem_filterMap.mp hy2 with ⟨s, _, hs⟩
  simp only at hs
  split at hs
  · cases hs
  · next hcond =>
    cases hs
    exact ⟨strip_strip s.text, hcond, rfl, rfl, hdur⟩

/-- Members of the sort-truncate-sort-project chain come from the scored
candidate list. -/
theorem mem_select_chain (V : List ScoredSeg) (n : ℤ) (x : TSeg)
    (hx : x ∈ (keySortAsc ScoredSeg.start
      (pySlice n (keySortDesc ScoredSeg.score V))).map selected_out) :
    ∃ y ∈ V, x = selected_out y := by
  rcases List.mem_map.mp hx with ⟨y, hy, hxy⟩
  refine ⟨y, ?_, hxy.symm⟩
  have h1 := (mem_pySortStable _ y _).mp hy
  have h2 := (pySlice_sublist n _).subset h1
  exact (mem_pySortStable _ y _).mp h2

/-- The chain's output is sorted by `start`. -/
theorem sorted_select_chain (V : List ScoredSeg) (n : ℤ) :
    ((keySortAsc ScoredSeg.start
      (pySlice n (keySortDesc ScoredSeg.score V))).map selected_out).Pairwise
      (fun a b => a.start ≤ b.start) := by
  rw [List.pairwise_map]
  exact (sorted_keySortAsc ScoredSeg.start _).imp (fun h => h)

/-- The chain's output length is bounded by a non-negative `num_segments`. -/
theorem length_select_chain (V : List ScoredSeg) (n : ℤ) (hn : 0 ≤ n) :
    (((keySortAsc ScoredSeg.start
      (pySlice n (keySortDesc ScoredSeg.score V))).map selected_out).length : ℤ)
      ≤ n := by
  rw [List.length_map]
  simp only [keySortAsc]
  rw [length_pySortStable]
  exact length_pySlice_le n hn _

/-- The chain's output carries the lexicographic order (start strictly
ascending, or equal starts with the selection score descending) whenever
the score field agrees with a key `κ` of the projected record. -/
theorem select_chain_pairwiseQ (κ : TSeg → ℕ) (V : List ScoredSeg) (n : ℤ)
    (hκ : ∀ y ∈ V, y.score = κ (selected_out y)) :
    ((keySortAsc ScoredSeg.start
      (pySlice n (keySortDesc ScoredSeg.score V))).map selected_out).Pairwise
      (fun a b => a.start < b.start ∨ (a.start = b.start ∧ κ b ≤ κ a)) := by
  have hM : (pySlice n (keySortDesc ScoredSeg.score V)).Pairwise
      (fun a b => b.score ≤ a.score) :=
    (sorted_keySortDesc ScoredSeg.score V).sublist (pySlice_sublist n _)
  have h2 := pairwise_keySortAsc_of_desc ScoredSeg.score ScoredSeg.start _ hM
  rw [List.pairwise_map]
  refine h2.imp_of_mem ?_
  intro a b ha hb hab
  have haV : a ∈ V :=
    (mem_pySortStable _ a _).mp ((pySlice_sublist n _).subset
      ((mem_pySortStable _ a _).mp ha))
  have hbV : b ∈ V :=
    (mem_pySortStable _ b _).mp ((pySlice_sublist n _).subset
      ((mem_pySortStable _ b _).mp hb))
  rcases hab with h | ⟨h1, h2⟩
  · exact Or.inl h
  · exact Or.inr ⟨h1, by rw [← hκ a haV, ← hκ b hbV]; exact h2⟩

/-- Re-running the sort-truncate-sort-project chain on a list that already
carries the lexicographic order reproduces the list: the score sort only
permutes elements across different starts, the truncation keeps everything
(`|L| ≤ n`), and the stable chronological sort puts every element back. -/
theorem rerun_core (κ : TSeg → ℕ) (L : List TSeg)
    (hQ : L.Pairwise (fun a b => a.start < b.start ∨
      (a.start = b.start ∧ κ b ≤ κ a)))
    (lift : TSeg → ScoredSeg)
    (hstart : ∀ x, (lift x).start = x.start)
    (hscore : ∀ x, (lift x).score = κ x)
    (hproj : ∀ x ∈ L, selected_out (lift x) = x)
    (n : ℤ) (hn : 0 ≤ n) (hlen : (L.length : ℤ) ≤ n) :
    (keySortAsc ScoredSeg.start (pySlice n (keySortDesc ScoredSeg.score
      (L.map lift)))).map selected_out = L := by
  have hdesc : keySortDesc ScoredSeg.score (L.map lift) =
      (keySortDesc κ L).map lift := by
    refine pySortStable_map _ _ lift ?_ L
    intro a b
    rw [hscore, hscore]
  have hslice : pySlice n ((keySortDesc κ L).map lift) =
      (keySortDesc κ L).map lift := by
    rw [pySlice_nonneg n hn]
    refine List.take_of_length_le ?_
    rw [List.length_map]
    simp only [keySortDesc]
    rw [length_pySortStable]
    omega
  have hasc : keySortAsc ScoredSeg.start ((keySortDesc κ L).map lift) =
      (keySortAsc (fun x : TSeg => x.start) (keySortDesc κ L)).map lift := by
    refine pySortStable_map _ _ lift ?_ _
    intro a b
    rw [hstart, hstart]
  rw [hdesc, hslice, hasc]
  have hdd : keySortAsc (fun x : TSeg => x.start) (keySortDesc κ L) = L :=
    double_sort_eq κ (fun x : TSeg => x.start) L hQ
  rw [hdd, List.map_map]
  have : L.map (selected_out ∘ lift) = L.map id :=
    List.map_congr_left (fun a ha => hproj a ha)
  rw [this, List.map_id]

theorem basic_output_shape (ts : List TSeg) (n : ℤ) (d : ℚ) (h : ts ≠ []) :
    _find_important_segments_basic ts n d =
      (keySortAsc ScoredSeg.start (pySlice n (keySortDesc ScoredSeg.score
        (valid_segments ts d)))).map selected_out := by
  unfold _find_important_segments_basic
  rw [if_neg h]

theorem spacy_output_shape (posScore : Text → ℕ) (ts : List TSeg) (n : ℤ)
    (d : ℚ) (h : ts ≠ []) (h2 : candidate_segments posScore ts d ≠ []) :
    find_important_segments_spacy posScore ts n d =
      (keySortAsc ScoredSeg.start (pySlice n (keySortDesc ScoredSeg.score
        (candidate_segments posScore ts d)))).map selected_out := by
  unfold find_important_segments_spacy
  rw [if_neg h]
  show (if candidate_segments posScore ts d = [] then [] else
    (keySortAsc ScoredSeg.start (pySlice n (keySortDesc ScoredSeg.score
      (candidate_segments posScore ts d)))).map selected_out) = _
  rw [if_neg h2]

theorem spacy_empty_candidates (posScore : Text → ℕ) (ts : List TSeg) (n : ℤ)
    (d : ℚ) (h2 : candidate_segments posScore ts d = []) :
    find_important_segments_spacy posScore ts n d = [] := by
  unfold find_important_segments_spacy
  split
  · rfl
  · show (if candidate_segments posScore ts d = [] then [] else
      (keySortAsc ScoredSeg.start (pySlice n (keySortDesc ScoredSeg.score
        (candidate_segments posScore ts d)))).map selected_out) = []
    rw [if_pos h2]

theorem basic_idempotent (ts : List TSeg) (n : ℤ) (d d2 : ℚ) (hn : 0 ≤ n)
    (hd : ∀ x ∈ _find_important_segments_basic ts n d,
      d2 ≤ x.stop - x.start) :
    _find_important_segments_basic
      (_find_important_segments_basic ts n d) n d2 =
      _find_important_segments_basic ts n d := by
  by_cases hts : ts = []
  · subst hts
    rfl
  by_cases hL : _find_important_segments_basic ts n d = []
  · rw [hL]
    rfl
  have hshape := basic_output_shape ts n d hts
  have hmem : ∀ x ∈ _find_important_segments_basic ts n d,
      strip x.text = x.text ∧ x.text ≠ [] := by
    intro x hx
    rw [hshape] at hx
    rcases mem_select_chain _ n x hx with ⟨y, hyV, hxy⟩
    obtain ⟨h1, h2, _, _, _, _⟩ := valid_segments_spec ts d y hyV
    subst hxy
    exact ⟨h1, h2⟩
  have hQ : (_find_important_segments_basic ts n d).Pairwise
      (fun a b => a.start < b.start ∨
        (a.start = b.start ∧ b.text.length ≤ a.text.length)) := by
    rw [hshape]
    exact select_chain_pairwiseQ (fun x => x.text.length) _ n (fun y hy => by
      obtain ⟨_, _, h3, _, _, _⟩ := valid_segments_spec ts d y hy
      exact h3)
  have hlen : ((_find_important_segments_basic ts n d).length : ℤ) ≤ n := by
    rw [hshape]
    exact length_select_chain _ n hn
  set L := _find_important_segments_basic ts n d with hLdef
  have hvalid : valid_segments L d2 = L.map (fun x =>
      ⟨x.text, x.start, x.stop, x.stop - x.start, x.text.length⟩) := by
    refine filterMap_eq_map_of_forall _ _ _ ?_
    intro a ha
    obtain ⟨h1, h2⟩ := hmem a ha
    have hda := hd a ha
    simp only
    rw [if_pos ⟨hda, by rw [h1]; exact h2⟩, h1]
  rw [basic_output_shape L n d2 hL, hvalid]
  exact rerun_core (fun x => x.text.length) L hQ
    (fun x => ⟨x.text, x.start, x.stop, x.stop - x.start, x.text.length⟩)
    (fun x => rfl) (fun x => rfl) (fun x _ => rfl) n hn hlen

theorem spacy_idempotent (posScore : Text → ℕ) (ts : List TSeg) (n : ℤ)
    (d d2 : ℚ) (hn : 0 ≤ n)
    (hd : ∀ x ∈ find_important_segments_spacy posScore ts n d,
      d2 ≤ x.stop - x.start) :
    find_important_segments_spacy posScore
      (find_important_segments_spacy posScore ts n d) n d2 =
      find_important_segments_spacy posScore ts n d := by
  by_cases hts : ts = []
  · subst hts
    rfl
  by_cases hL : find_important_segments_spacy posScore ts n d = []
  · rw [hL]
    rfl
  have hcand : candidate_segments posScore ts d ≠ [] := by
    intro hc
    exact hL (spacy_empty_candidates posScore ts n d hc)
  have hshape := spacy_output_shape posScore ts n d hts hcand
  have hmem : ∀ x ∈ find_important_segments_spacy posScore ts n d,
      strip x.text = x.text ∧ x.text ≠ [] := by
    intro x hx
    rw [hshape] at hx
    rcases mem_select_chain _ n x hx with ⟨y, hyV, hxy⟩
    obtain ⟨h1, h2, _, _, _⟩ := candidate_segments_spec posScore ts d y hyV
    subst hxy
    exact ⟨h1, h2⟩
  have hQ : (find_important_segments_spacy posScore ts n d).Pairwise
      (fun a b => a.start < b.start ∨
        (a.start = b.start ∧ posScore b.text ≤ posScore a.text)) := by
    rw [hshape]
    exact select_chain_pairwiseQ (fun x => posScore x.text) _ n (fun y hy => by
      obtain ⟨_, _, h3, _, _⟩ := candidate_segments_spec posScore ts d y hy
      exact h3)
  have hlen : ((find_important_segments_spacy posScore ts n d).length : ℤ)
      ≤ n := by
    rw [hshape]
    exact length_select_chain _ n hn
  set L := find_important_segments_spacy posScore ts n d with hLdef
  have hscored : scored_segments posScore L = L.map (fun x =>
      ⟨x.text, x.start, x.stop, x.stop - x.start, posScore x.text⟩) := by
    refine filterMap_eq_map_of_forall _ _ _ ?_
    intro a ha
    obtain ⟨h1, h2⟩ := hmem a ha
    simp only
    rw [h1, if_neg h2]
  have hcand2 : candidate_segments posScore L d2 = L.map (fun x =>
      ⟨x.text, x.start, x.stop, x.stop - x.start, posScore x.text⟩) := by
    unfold candidate_segments
    rw [hscored]
    refine List.filter_eq_self.mpr ?_
    intro a ha
    rcases List.mem_map.mp ha with ⟨x, hx, hxa⟩
    subst hxa
    simpa using hd x hx
  have hcand2ne : candidate_segments posScore L d2 ≠ [] := by
    rw [hcand2]
    simpa using hL
  rw [spacy_output_shape posScore L n d2 hL hcand2ne, hcand2]
  exact rerun_core (fun x => posScore x.text) L hQ
    (fun x => ⟨x.text, x.start, x.stop, x.stop - x.start, posScore x.text⟩)
    (fun x => rfl) (fun x => rfl) (fun x _ => rfl) n hn hlen

theorem pySlice_zero (l : List α) : pySlice 0 l = [] := by
  simp [pySlice]

theorem select_chain_bounds (V : List ScoredSeg) (n : ℤ) (d : ℚ) (hn : 0 ≤ n)
    (hV : ∀ y ∈ V, d ≤ y.stop - y.start) :
    ((((keySortAsc ScoredSeg.start (pySlice n (keySortDesc ScoredSeg.score
        V))).map selected_out).length : ℤ) ≤ n) ∧
    (∀ x ∈ (keySortAsc ScoredSeg.start (pySlice n (keySortDesc
        ScoredSeg.score V))).map selected_out, d ≤ x.stop - x.start) ∧
    (((keySortAsc ScoredSeg.start (pySlice n (keySortDesc ScoredSeg.score
        V))).map selected_out).Pairwise (fun a b => a.start ≤ b.start)) := by
  refine ⟨length_select_chain V n hn, ?_, sorted_select_chain V n⟩
  intro x hx
  rcases mem_select_chain V n x hx with ⟨y, hyV, hxy⟩
  subst hxy
  exact hV y hyV

/-! ### Claim C1 -/

/-- C1 counterexample: as stated the claim quantifies over every
`num_segments`, but for a negative `num_segments` the Python slice
`lst[:num_segments]` keeps `len(lst) + num_segments` elements, so the
returned length is not bounded by `num_segments`: with one valid segment
and `num_segments = -1` the result has length `0`, and `0 ≤ -1` is false. -/
theorem C1_counterexample :
    ¬ (((find_important_segments false (fun _ => 0)
      [⟨"ab".data, 0, 10⟩] (-1) 0).length : ℤ) ≤ -1) := by
  norm_num [find_important_segments, _find_important_segments_basic,
    valid_segments, keySortDesc, keySortAsc, pySortStable, pyInsert, pySlice,
    selected_out, strip, List.filterMap]

/-- C1 (amended to `num_segments ≥ 0`): in both the spaCy mode and the
text-length fallback, `find_important_segments` returns at most
`num_segments` segments, every returned segment has
`end - start ≥ min_segment_duration`, and the result is sorted by `start`
ascending. -/
theorem C1_selector_bounds (spacyOk : Bool) (posScore : Text → ℕ)
    (ts : List TSeg) (n : ℤ) (d : ℚ) (hn : 0 ≤ n) :
    (((find_important_segments spacyOk posScore ts n d).length : ℤ) ≤ n) ∧
    (∀ x ∈ find_important_segments spacyOk posScore ts n d,
      d ≤ x.stop - x.start) ∧
    ((find_important_segments spacyOk posScore ts n d).Pairwise
      (fun a b => a.start ≤ b.start)) := by
  cases spacyOk with
  | false =>
    simp only [find_important_segments, Bool.false_eq_true, if_false]
    by_cases hts : ts = []
    · subst hts
      exact ⟨by simpa using hn, by simp [_find_important_segments_basic],
        by simp [_find_important_segments_basic]⟩
    · rw [basic_output_shape ts n d hts]
      refine select_chain_bounds _ n d hn ?_
      intro y hy
      obtain ⟨_, _, _, h4, h5, _⟩ := valid_segments_spec ts d y hy
      rw [← h4]
      exact h5
  | true =>
    simp only [find_important_segments, if_true]
    by_cases hts : ts = []
    · subst hts
      exact ⟨by simpa using hn, by simp [find_important_segments_spacy],
        by simp [find_important_segments_spacy]⟩
    by_cases hc : candidate_segments posScore ts d = []
    · rw [spacy_empty_candidates posScore ts n d hc]
      exact ⟨by simpa using hn, by simp, by simp⟩
    · rw [spacy_output_shape posScore ts n d hts hc]
      refine select_chain_bounds _ n d hn ?_
      intro y hy
      obtain ⟨_, _, _, h4, h5⟩ := candidate_segments_spec posScore ts d y hy
      rw [← h4]
      exact h5

/-- C1 witness: the amended claim at a concrete input. -/
theorem C1_selector_bounds_witness :
    (0 : ℤ) ≤ 2 ∧
    ((((find_important_segments false (fun _ => 0)
        [⟨"hi".data, 0, 5⟩] 2 1).length : ℤ) ≤ 2) ∧
    (∀ x ∈ find_important_segments false (fun _ => 0)
        [⟨"hi".data, 0, 5⟩] 2 1, (1 : ℚ) ≤ x.stop - x.start) ∧
    ((find_important_segments false (fun _ => 0)
        [⟨"hi".data, 0, 5⟩] 2 1).Pairwise (fun a b => a.start ≤ b.start))) :=
  ⟨by norm_num,
    C1_selector_bounds false (fun _ => 0) [⟨"hi".data, 0, 5⟩] 2 1 (by norm_num)⟩

/-! ### Claim C2 -/

/-- C2 counterexample: the claim says `num_segments ≤ 0` always yields an
empty list, but Python's `lst[:-1]` keeps all but the last element: with
two valid segments and `num_segments = -1` the selector returns one
segment, not an empty list. -/
theorem C2_counterexample :
    find_important_segments false (fun _ => 0)
      [⟨"ab".data, 0, 10⟩, ⟨"cde".data, 20, 30⟩] (-1) 0 ≠ [] := by
  norm_num +decide [find_important_segments, _find_important_segments_basic,
    valid_segments, keySortDesc, keySortAsc, pySortStable, pyInsert, pySlice,
    selected_out, strip, List.filterMap, List.dropWhile]

/-- C2 (amended to `num_segments = 0`): in both modes,
`find_important_segments` with `num_segments = 0` returns an empty list,
and an empty input list yields an empty output list, with no error. -/
theorem C2_edge_cases (spacyOk : Bool) (posScore : Text → ℕ)
    (ts : List TSeg) (n : ℤ) (d : ℚ) :
    find_important_segments spacyOk posScore ts 0 d = [] ∧
    find_important_segments spacyOk posScore [] n d = [] := by
  constructor
  · cases spacyOk with
    | false =>
      simp only [find_important_segments, Bool.false_eq_true, if_false]
      by_cases hts : ts = []
      · subst hts
        rfl
      · rw [basic_output_shape ts 0 d hts, pySlice_zero]
        rfl
    | true =>
      simp only [find_important_segments, if_true]
      by_cases hts : ts = []
      · subst hts
        rfl
      by_cases hc : candidate_segments posScore ts d = []
      · exact spacy_empty_candidates posScore ts 0 d hc
      · rw [spacy_output_shape posScore ts 0 d hts hc, pySlice_zero]
        rfl
  · cases spacyOk <;> rfl

/-! ### Claim C9 -/

/-- C9: both sort steps of the selector are stable, so candidates with
equal score appear in the score-ranked list (and hence in the truncated
selection, as an order-preserving sublist) in their original input order,
in the fallback mode (scores are trimmed text lengths recorded in
`valid_segments`) as well as in the spaCy mode (scores are POS-tag counts
recorded in `candidate_segments`); likewise the chronological re-sort
keeps equal-`start` elements in their incoming order. -/
theorem C9_stable_ties (ts : List TSeg) (d : ℚ) (n : ℤ) (c : ℕ) (q : ℚ)
    (posScore : Text → ℕ) (M : List ScoredSeg) :
    ((keySortDesc ScoredSeg.score (valid_segments ts d)).filter
        (fun x => decide (x.score = c)) =
      (valid_segments ts d).filter (fun x => decide (x.score = c))) ∧
    (List.Sublist
      ((pySlice n (keySortDesc ScoredSeg.score (valid_segments ts d))).filter
        (fun x => decide (x.score = c)))
      ((valid_segments ts d).filter (fun x => decide (x.score = c)))) ∧
    ((keySortDesc ScoredSeg.score (candidate_segments posScore ts d)).filter
        (fun x => decide (x.score = c)) =
      (candidate_segments posScore ts d).filter
        (fun x => decide (x.score = c))) ∧
    (List.Sublist
      ((pySlice n (keySortDesc ScoredSeg.score
        (candidate_segments posScore ts d))).filter
        (fun x => decide (x.score = c)))
      ((candidate_segments posScore ts d).filter
        (fun x => decide (x.score = c)))) ∧
    ((keySortAsc ScoredSeg.start M).filter (fun x => decide (x.start = q)) =
      M.filter (fun x => decide (x.start = q))) := by
  refine ⟨keySortDesc_stable_filter ScoredSeg.score _ c, ?_,
    keySortDesc_stable_filter ScoredSeg.score _ c, ?_,
    keySortAsc_stable_filter ScoredSeg.start M q⟩
  · have h := (pySlice_sublist n (keySortDesc ScoredSeg.score
      (valid_segments ts d))).filter (fun x => decide (x.score = c))
    rwa [keySortDesc_stable_filter ScoredSeg.score _ c] at h
  · have h := (pySlice_sublist n (keySortDesc ScoredSeg.score
      (candidate_segments posScore ts d))).filter
      (fun x => decide (x.score = c))
    rwa [keySortDesc_stable_filter ScoredSeg.score _ c] at h

/-! ### Claim C8 -/

/-- C8 counterexample: as stated the claim allows any `num_segments`,
including negative ones, but re-running with a negative `num_segments`
drops elements again (`lst[:-1]`): here the first run returns two
segments (whose durations all dominate the re-run `min_segment_duration`
of `0`), and the re-run returns only one of them. -/
theorem C8_counterexample :
    (∀ x ∈ _find_important_segments_basic
      [⟨"ab".data, 0, 10⟩, ⟨"cde".data, 20, 30⟩, ⟨"f".data, 40, 50⟩]
      (-1) 0, (0 : ℚ) ≤ x.stop - x.start) ∧
    _find_important_segments_basic (_find_important_segments_basic
      [⟨"ab".data, 0, 10⟩, ⟨"cde".data, 20, 30⟩, ⟨"f".data, 40, 50⟩]
      (-1) 0) (-1) 0 ≠
    _find_important_segments_basic
      [⟨"ab".data, 0, 10⟩, ⟨"cde".data, 20, 30⟩, ⟨"f".data, 40, 50⟩]
      (-1) 0 := by
  constructor
  · intro x hx
    norm_num +decide [_find_important_segments_basic, valid_segments,
      keySortDesc, keySortAsc, pySortStable, pyInsert, pySlice, selected_out,
      strip, List.filterMap, List.dropWhile] at hx
    rcases hx with h | h <;> rw [h] <;> norm_num
  · norm_num +decide [_find_important_segments_basic, valid_segments,
      keySortDesc, keySortAsc, pySortStable, pyInsert, pySlice, selected_out,
      strip, List.filterMap, List.dropWhile]

/-- C8 (amended to `num_segments ≥ 0`): re-running either selection mode on
its own output, with the same `num_segments` and any
`min_segment_duration` dominated by every output duration, returns the
output unchanged. -/
theorem C8_idempotent (posScore : Text → ℕ) (ts : List TSeg) (n : ℤ)
    (d d2 : ℚ) (hn : 0 ≤ n)
    (hdB : ∀ x ∈ _find_important_segments_basic ts n d,
      d2 ≤ x.stop - x.start)
    (hdP : ∀ x ∈ find_important_segments_spacy posScore ts n d,
      d2 ≤ x.stop - x.start) :
    _find_important_segments_basic
      (_find_important_segments_basic ts n d) n d2 =
      _find_important_segments_basic ts n d ∧
    find_important_segments_spacy posScore
      (find_important_segments_spacy posScore ts n d) n d2 =
      find_important_segments_spacy posScore ts n d :=
  ⟨basic_idempotent ts n d d2 hn hdB,
    spacy_idempotent posScore ts n d d2 hn hdP⟩

/-- C8 witness: the amended claim at a concrete input. -/
theorem C8_idempotent_witness :
    (0 : ℤ) ≤ 2 ∧
    (∀ x ∈ _find_important_segments_basic [⟨"hi".data, 0, 5⟩] 2 1,
      (1 : ℚ) ≤ x.stop - x.start) ∧
    (∀ x ∈ find_important_segments_spacy List.length [⟨"hi".data, 0, 5⟩] 2 1,
      (1 : ℚ) ≤ x.stop - x.start) ∧
    (_find_important_segments_basic
      (_find_important_segments_basic [⟨"hi".data, 0, 5⟩] 2 1) 2 1 =
      _find_important_segments_basic [⟨"hi".data, 0, 5⟩] 2 1 ∧
    find_important_segments_spacy List.length
      (find_important_segments_spacy List.length [⟨"hi".data, 0, 5⟩] 2 1) 2 1 =
      find_important_segments_spacy List.length [⟨"hi".data, 0, 5⟩] 2 1) := by
  have h1 : ∀ x ∈ _find_important_segments_basic [⟨"hi".data, 0, 5⟩] 2 1,
      (1 : ℚ) ≤ x.stop - x.start := by
    intro x hx
    norm_num [_find_important_segments_basic, valid_segments, keySortDesc,
      keySortAsc, pySortStable, pyInsert, pySlice, selected_out, strip,
      List.filterMap] at hx
    rw [hx]
    norm_num
  have h2 : ∀ x ∈ find_important_segments_spacy List.length
      [⟨"hi".data, 0, 5⟩] 2 1, (1 : ℚ) ≤ x.stop - x.start := by
    intro x hx
    norm_num [find_important_segments_spacy, scored_segments,
      candidate_segments, keySortDesc, keySortAsc, pySortStable, pyInsert,
      pySlice, selected_out, strip, List.filterMap, List.filter] at hx
    rw [hx]
    norm_num
  exact ⟨by norm_num, h1, h2,
    C8_idempotent List.length [⟨"hi".data, 0, 5⟩] 2 1 1 (by norm_num) h1 h2⟩

/-! ### Facts about decimal formatting and parsing (`utils.py`) -/

theorem digitVal_digitChar (k : ℕ) (h : k < 10) :
    digitVal (digitChar k) = k := by
  interval_cases k <;> decide

theorem isDigitB_digitChar (k : ℕ) (h : k < 10) :
    isDigitB (digitChar k) = true := by
  interval_cases k <;> decide

theorem natDigits_ne_nil (n : ℕ) : natDigits n ≠ [] := by
  rw [natDigits]
  split
  · simp
  · simp

theorem natDigits_all_digit (n : ℕ) : ∀ c ∈ natDigits n, isDigitB c = true := by
  induction n using Nat.strong_induction_on with
  | _ n ih =>
    rw [natDigits]
    split
    · next h =>
      intro c hc
      simp only [List.mem_singleton] at hc
      subst hc
      exact isDigitB_digitChar n h
    · next h =>
      intro c hc
      rcases List.mem_append.mp hc with hc | hc
      · exact ih (n / 10) (Nat.div_lt_self (by omega) (by omega)) c hc
      · simp only [List.mem_singleton] at hc
        subst hc
        exact isDigitB_digitChar (n % 10) (Nat.mod_lt n (by omega))

theorem natDigits_foldl (n : ℕ) : ∀ a : ℕ,
    (natDigits n).foldl (fun acc c => 10 * acc + digitVal c) a =
      a * 10 ^ (natDigits n).length + n := by
  induction n using Nat.strong_induction_on with
  | _ n ih =>
    intro a
    rw [natDigits]
    split
    · next h =>
      simp [List.foldl, digitVal_digitChar n h]
      ring
    · next h =>
      rw [List.foldl_append, ih (n / 10) (Nat.div_lt_self (by omega) (by omega)) a]
      simp only [List.foldl, List.length_append, List.length_singleton]
      rw [digitVal_digitChar (n % 10) (Nat.mod_lt n (by omega))]
      rw [pow_succ]
      have := Nat.div_add_mod n 10
      ring_nf
      omega

theorem parseDigits_natDigits (n : ℕ) : parseDigits (natDigits n) = .ok n := by
  unfold parseDigits
  rw [if_pos ⟨natDigits_ne_nil n,
    List.all_eq_true.mpr (natDigits_all_digit n)⟩]
  rw [natDigits_foldl n 0]
  simp

theorem pad2_all_digit (m : ℕ) : ∀ c ∈ pad2 m, isDigitB c = true := by
  unfold pad2
  split
  · intro c hc
    rcases List.mem_cons.mp hc with hc | hc
    · subst hc
      decide
    · exact natDigits_all_digit m c hc
  · exact natDigits_all_digit m

theorem pad2_ne_nil (m : ℕ) : pad2 m ≠ [] := by
  unfold pad2
  split
  · simp
  · exact natDigits_ne_nil m

theorem parseDigits_pad2 (m : ℕ) : parseDigits (pad2 m) = .ok m := by
  unfold pad2
  split
  · unfold parseDigits
    rw [if_pos ⟨by simp, List.all_eq_true.mpr (by
      intro c hc
      rcases List.mem_cons.mp hc with hc | hc
      · subst hc
        decide
      · exact natDigits_all_digit m c hc)⟩]
    simp only [List.foldl]
    have h0 : (10 : ℕ) * 0 + digitVal '0' = 0 := by decide
    rw [h0, natDigits_foldl m 0]
    simp
  · exact parseDigits_natDigits m

theorem isDigitB_not_ws (c : Char) (h : isDigitB c = true) :
    c.isWhitespace = false := by
  have h32 : ¬ (c = ' ') := by
    intro he
    subst he
    exact absurd h (by decide)
  have h9 : ¬ (c = '\t') := by
    intro he
    subst he
    exact absurd h (by decide)
  have h10 : ¬ (c = '\n') := by
    intro he
    subst he
    exact absurd h (by decide)
  have h13 : ¬ (c = '\r') := by
    intro he
    subst he
    exact absurd h (by decide)
  simp [Char.isWhitespace, h32, h9, h10, h13]

theorem isDigitB_ne_sign (c : Char) (h : isDigitB c = true) :
    c ≠ '-' ∧ c ≠ '+' := by
  constructor <;> intro he <;> subst he <;> exact absurd h (by decide)

/-- `int()` on a pure digit string parses the digits. -/
theorem pyInt_of_digits (t : Text) (hne : t ≠ [])
    (hd : ∀ c ∈ t, isDigitB c = true) :
    pyInt t = (parseDigits t).map (fun k => (k : ℤ)) := by
  unfold pyInt
  rw [strip_of_no_ws t (fun c hc => isDigitB_not_ws c (hd c hc))]
  rcases ht : t with _ | ⟨c, rest⟩
  · exact absurd ht hne
  · have hc := hd c (ht ▸ List.mem_cons_self c rest)
    obtain ⟨h1, h2⟩ := isDigitB_ne_sign c hc
    rw [if_neg (by
        simp only [List.head?_cons, Option.some.injEq]
        exact h1),
      if_neg (by
        simp only [List.head?_cons, Option.some.injEq]
        exact h2)]

theorem pyInt_natDigits (n : ℕ) : pyInt (natDigits n) = .ok (n : ℤ) := by
  rw [pyInt_of_digits _ (natDigits_ne_nil n) (natDigits_all_digit n),
    parseDigits_natDigits]
  rfl

theorem pyInt_pad2 (m : ℕ) : pyInt (pad2 m) = .ok (m : ℤ) := by
  rw [pyInt_of_digits _ (pad2_ne_nil m) (pad2_all_digit m), parseDigits_pad2]
  rfl

theorem splitOnChar_not_mem (c : Char) (a : Text) (ha : c ∉ a) :
    splitOnChar c a = [a] := by
  induction a with
  | nil => rfl
  | cons x xs ih =>
    simp only [splitOnChar]
    rw [if_neg (by
      intro he
      exact ha (he ▸ List.mem_cons_self x xs))]
    rw [ih (fun hm => ha (List.mem_cons_of_mem x hm))]

theorem splitOnChar_append (c : Char) (a rest : Text) (ha : c ∉ a) :
    splitOnChar c (a ++ c :: rest) = a :: splitOnChar c rest := by
  induction a with
  | nil => simp [splitOnChar]
  | cons x xs ih =>
    simp only [List.cons_append, splitOnChar]
    rw [if_neg (by
      intro he
      exact ha (he ▸ List.mem_cons_self x xs))]
    simp only [List.append_eq]
    rw [ih (fun hm => ha (List.mem_cons_of_mem x hm))]

theorem colon_not_digit_mem (a : Text) (hd : ∀ c ∈ a, isDigitB c = true) :
    ':' ∉ a := by
  intro hm
  have := hd ':' hm
  simp [isDigitB] at this

theorem format_time_hours (s : ℕ) (h : s / 60 / 60 > 0) :
    format_time s = natDigits (s / 60 / 60) ++
      ':' :: pad2 (s / 60 % 60) ++ ':' :: pad2 (s % 60) := by
  show (if s / 60 / 60 > 0 then natDigits (s / 60 / 60) ++
      ':' :: pad2 (s / 60 % 60) ++ ':' :: pad2 (s % 60)
    else natDigits (s / 60 % 60) ++ ':' :: pad2 (s % 60)) = _
  rw [if_pos h]

theorem format_time_mmss (s : ℕ) (h : ¬ s / 60 / 60 > 0) :
    format_time s = natDigits (s / 60 % 60) ++ ':' :: pad2 (s % 60) := by
  show (if s / 60 / 60 > 0 then natDigits (s / 60 / 60) ++
      ':' :: pad2 (s / 60 % 60) ++ ':' :: pad2 (s % 60)
    else natDigits (s / 60 % 60) ++ ':' :: pad2 (s % 60)) = _
  rw [if_neg h]

/-! ### Claim C7 -/

/-- C7: for every non-negative integer `s` below 24 hours,
`convert_time_to_seconds (format_time s) = s`: `format_time` emits `M:SS`
below one hour and `H:MM:SS` from one hour on, and `convert_time_to_seconds`
recombines either shape exactly. -/
theorem C7_round_trip (s : ℕ) (_h : s < 86400) :
    convert_time_to_seconds (format_time s) = .ok (s : ℤ) := by
  by_cases hh : s / 60 / 60 > 0
  · rw [format_time_hours s hh]
    unfold convert_time_to_seconds
    rw [List.append_assoc, List.cons_append]
    rw [splitOnChar_append ':' _ _
      (colon_not_digit_mem _ (natDigits_all_digit _))]
    rw [splitOnChar_append ':' _ _
      (colon_not_digit_mem _ (pad2_all_digit _))]
    rw [splitOnChar_not_mem ':' _
      (colon_not_digit_mem _ (pad2_all_digit _))]
    simp only [pyInt_natDigits, pyInt_pad2]
    show Except.ok _ = _
    congr 1
    have h1 := Nat.div_add_mod s 60
    have h2 := Nat.div_add_mod (s / 60) 60
    push_cast
    omega
  · rw [format_time_mmss s hh]
    unfold convert_time_to_seconds
    rw [splitOnChar_append ':' _ _
      (colon_not_digit_mem _ (natDigits_all_digit _))]
    rw [splitOnChar_not_mem ':' _
      (colon_not_digit_mem _ (pad2_all_digit _))]
    simp only [pyInt_natDigits, pyInt_pad2]
    show Except.ok _ = _
    congr 1
    have h1 := Nat.div_add_mod s 60
    have h2 := Nat.div_add_mod (s / 60) 60
    push_cast
    omega

/-- C7 witness: the round trip at `s = 3661`. -/
theorem C7_round_trip_witness :
    3661 < 86400 ∧
    convert_time_to_seconds (format_time 3661) = .ok (3661 : ℤ) :=
  ⟨by norm_num, C7_round_trip 3661 (by norm_num)⟩

/-! ### Claim C10 -/

/-- C10: when splitting the input on `':'` yields neither exactly two nor
exactly three parts, `convert_time_to_seconds` raises `ValueError` and
never returns a number. -/
theorem C10_invalid_format (t : Text)
    (h2 : (splitOnChar ':' t).length ≠ 2)
    (h3 : (splitOnChar ':' t).length ≠ 3) :
    convert_time_to_seconds t =
      .error "ValueError: Invalid time format. Expected HH:MM:SS or MM:SS." := by
  unfold convert_time_to_seconds
  rcases hp : splitOnChar ':' t with _ | ⟨a, _ | ⟨b, _ | ⟨c, _ | ⟨d, e⟩⟩⟩⟩
  · rfl
  · rfl
  · exact absurd (by rw [hp]; rfl) h2
  · exact absurd (by rw [hp]; rfl) h3
  · rfl

/-- C10 witness: `"1:2:3:4"` splits into four parts and raises. -/
theorem C10_invalid_format_witness :
    ((splitOnChar ':' ("1:2:3:4".data)).length ≠ 2 ∧
      (splitOnChar ':' ("1:2:3:4".data)).length ≠ 3) ∧
    convert_time_to_seconds ("1:2:3:4".data) =
      .error "ValueError: Invalid time format. Expected HH:MM:SS or MM:SS." :=
  ⟨⟨by decide, by decide⟩,
    C10_invalid_format ("1:2:3:4".data) (by decide) (by decide)⟩

/-! ### Claim C6 -/

/-- C6 evidence: `split_transcript_by_timestamps` never returns windows for
a non-empty transcript.  `content_analysis.py` comments out its
`format_time` import (line 4, `# format_time is not used`) yet calls
`format_time` on lines 52, 65 and 78, so the final flush (and any interior
window emission) raises `NameError` — here shown on a one-segment input
without word timestamps and on one with word timestamps. -/
theorem C6_windower_name_error :
    split_transcript_by_timestamps [⟨"hi".data, 0, 1, none⟩] 60 =
      .error "NameError: name 'format_time' is not defined" ∧
    split_transcript_by_timestamps
      [⟨"hi".data, 0, 1, some [⟨"hi".data, 0, 1⟩]⟩] 60 =
      .error "NameError: name 'format_time' is not defined" := by
  constructor
  · norm_num [split_transcript_by_timestamps, stepSegment, stepSegmentLevel,
      emitWindow, ca_format_time, List.foldlM, Except.bind]
    rfl
  · norm_num [split_transcript_by_timestamps, stepSegment, stepWord,
      emitWindow, ca_format_time, List.foldlM, Except.bind]
    rfl

/-! ### Claim C5 -/

/-- C5: the caption set built in `main_workflow` (lines 216-238) is exactly
the spec's description: the original transcript segments overlapping the
record's time range, rebased by `new_start = max(0, orig_start -
record.start)` and `new_end = orig_end - record.start`, with entries of
non-positive rebased duration or empty trimmed text removed. -/
theorem C5_caption_set (recStart recStop : ℚ) (transcript : List TSeg) :
    adjusted_transcription_segments recStart recStop transcript =
      caption_set_spec recStart recStop transcript := by
  unfold adjusted_transcription_segments caption_set_spec
  induction transcript with
  | nil => rfl
  | cons ws t ih =>
    simp only [List.filter_cons]
    by_cases h1 : ws.start < recStop
    case neg =>
      rw [if_neg (by simp [h1])]
      exact ih
    by_cases h2 : recStart < ws.stop
    case neg =>
      rw [if_neg (by simp [h2])]
      exact ih
    rw [if_pos (by simp [h1, h2]), List.map_cons, List.filter_cons]
    by_cases htext : strip ws.text = []
    · rw [List.filterMap_cons_none (by simp [htext]),
        if_neg (by simp [htext])]
      exact ih
    · by_cases hdur : max 0 (ws.start - recStart) < ws.stop - recStart
      · rw [List.filterMap_cons_some (b := (⟨strip ws.text,
          max 0 (ws.start - recStart), ws.stop - recStart⟩ : TSeg))
          (by simp [htext, hdur]), if_pos (by simp [htext, hdur])]
        rw [ih]
      · rw [List.filterMap_cons_none (by simp [htext, hdur]),
          if_neg (by simp [htext, hdur])]
        exact ih

/-! ### Facts about stages 5 and 6 of the orchestrator -/

theorem filterMap_map_sublist (f : α → Option β) (g : β → γ) (h : α → γ)
    (l : List α) (hfg : ∀ a b, f a = some b → g b = h a) :
    List.Sublist ((l.filterMap f).map g) (l.map h) := by
  induction l with
  | nil => simp
  | cons a t ih =>
    rw [List.filterMap_cons, List.map_cons]
    cases hfa : f a with
    | none => exact ih.cons (h a)
    | some b =>
      rw [List.map_cons, hfg a b hfa]
      exact ih.cons₂ (h a)

/-- A record surviving `stage6Step` keeps its index and segment and gets a
`final_clip_path` whose file name carries the same index. -/
theorem stage6Step_spec (env : OrchEnv) (transcript : List TSeg)
    (r r2 : ClipRecord) (h : stage6Step env transcript r = some r2) :
    r2.idx = r.idx ∧ r2.seg = r.seg ∧
      ∃ p, r2.finalClipPath = some p ∧ ClipPath.idx p = r.idx := by
  unfold stage6Step at h
  split at h
  · cases h
  · split at h
    · cases h
      refine ⟨rfl, rfl, ?_⟩
      refine ⟨_, rfl, ?_⟩
      split
      · rfl
      · split
        · rfl
        · split
          · rfl
          · rfl
    · cases h

theorem stage6_mem_spec (env : OrchEnv) (transcript : List TSeg)
    (records : List ClipRecord) (r2 : ClipRecord)
    (h : r2 ∈ stage6 env transcript records) :
    ∃ p, r2.finalClipPath = some p ∧ ClipPath.idx p = r2.idx := by
  rcases List.mem_filterMap.mp h with ⟨r, _, hstep⟩
  obtain ⟨hidx, _, p, hp, hpi⟩ := stage6Step_spec env transcript r r2 hstep
  exact ⟨p, hp, by rw [hpi, hidx]⟩

theorem filterMap_finalPath_map_idx (l : List ClipRecord)
    (h : ∀ r ∈ l, ∃ p, r.finalClipPath = some p ∧ ClipPath.idx p = r.idx) :
    (l.filterMap (·.finalClipPath)).map ClipPath.idx = l.map (·.idx) := by
  induction l with
  | nil => rfl
  | cons r t ih =>
    obtain ⟨p, hp, hpi⟩ := h r (List.mem_cons_self r t)
    rw [List.filterMap_cons, hp, List.map_cons, List.map_cons, hpi,
      ih (fun r2 hr2 => h r2 (List.mem_cons_of_mem r hr2))]

theorem stage5_map_idx_sublist (env : OrchEnv) (selected : List TSeg) :
    List.Sublist ((stage5 env selected).map (·.idx))
      (List.range selected.length) := by
  unfold stage5
  have h := filterMap_map_sublist
    (fun p : ℕ × TSeg =>
      if env.cutOk p.1 p.2 then some (⟨p.2, p.1, some (.raw p.1), none⟩ :
        ClipRecord) else none)
    (·.idx) Prod.fst selected.enum ?_
  · rw [List.enum_map_fst] at h
    exact h
  · intro a b hab
    by_cases hc : env.cutOk a.1 a.2 = true
    · simp only [hc, if_true] at hab
      cases hab
      rfl
    · simp only [hc] at hab
      simp at hab

theorem stage5_map_seg_sublist (env : OrchEnv) (selected : List TSeg) :
    List.Sublist ((stage5 env selected).map (·.seg)) selected := by
  unfold stage5
  have h := filterMap_map_sublist
    (fun p : ℕ × TSeg =>
      if env.cutOk p.1 p.2 then some (⟨p.2, p.1, some (.raw p.1), none⟩ :
        ClipRecord) else none)
    (·.seg) Prod.snd selected.enum ?_
  · rw [List.enum_map_snd] at h
    exact h
  · intro a b hab
    by_cases hc : env.cutOk a.1 a.2 = true
    · simp only [hc, if_true] at hab
      cases hab
      rfl
    · simp only [hc] at hab
      simp at hab

/-- `stage6Step` only fills `final_clip_path`: index and segment survive. -/
theorem stage6Step_fields (env : OrchEnv) (transcript : List TSeg)
    (r r2 : ClipRecord) (h : stage6Step env transcript r = some r2) :
    r2.idx = r.idx ∧ r2.seg = r.seg :=
  ⟨(stage6Step_spec env transcript r r2 h).1,
    (stage6Step_spec env transcript r r2 h).2.1⟩

theorem stage6_map_idx_sublist (env : OrchEnv) (transcript : List TSeg)
    (records : List ClipRecord) :
    List.Sublist ((stage6 env transcript records).map (·.idx))
      (records.map (·.idx)) := by
  unfold stage6
  refine filterMap_map_sublist _ _ _ records ?_
  intro r r2 h
  exact (stage6Step_fields env transcript r r2 h).1

theorem stage6_map_seg_sublist (env : OrchEnv) (transcript : List TSeg)
    (records : List ClipRecord) :
    List.Sublist ((stage6 env transcript records).map (·.seg))
      (records.map (·.seg)) := by
  unfold stage6
  refine filterMap_map_sublist _ _ _ records ?_
  intro r r2 h
  exact (stage6Step_fields env transcript r r2 h).2

/-! ### Claim C3 -/

/-- C3: the final output paths of stages 5 and 6 form a subsequence of the
selected segments in their original chronological order: the surviving
indices are a sublist of `range` (strictly increasing, hence order
preserved and duplicate free), the surviving records' segments are a
sublist of the selected ones, and in the concrete three-record scenario
where only the middle record fails aspect-ratio conversion the output is
exactly the first and third records' formatted paths, in order. -/
theorem C3_output_subsequence (env : OrchEnv) (transcript : List TSeg)
    (selected : List TSeg) :
    (List.Sublist
      ((main_workflow_stage56 env transcript selected).map ClipPath.idx)
      (List.range selected.length)) ∧
    (List.Sublist
      ((stage6 env transcript (stage5 env selected)).map (·.seg)) selected) ∧
    (main_workflow_stage56
      ⟨fun _ _ => true, fun _ => true, fun i => decide (i ≠ 1),
        fun _ => false, true⟩ []
      [⟨"a".data, 0, 1⟩, ⟨"b".data, 2, 3⟩, ⟨"c".data, 4, 5⟩] =
      [ClipPath.formatted 0, ClipPath.formatted 2]) := by
  refine ⟨?_, ?_, by rfl⟩
  · unfold main_workflow_stage56
    rw [filterMap_finalPath_map_idx _
      (fun r hr => stage6_mem_spec env transcript _ r hr)]
    exact (stage6_map_idx_sublist env transcript _).trans
      (stage5_map_idx_sublist env selected)
  · exact (stage6_map_seg_sublist env transcript _).trans
      (stage5_map_seg_sublist env selected)

/-! ### Claim C4 -/

/-- C4 counterexample: a record whose captioning fails (the captioned
output file never appears, `captionedExists = false`) while its caption
set is non-empty is NOT dropped: it contributes its aspect-ratio-converted
path to the final output, so the claim that such a record "does not
contribute a path" is false. -/
theorem C4_counterexample :
    (adjusted_transcription_segments 0 1 [⟨"x".data, 0, 1⟩] ≠ [] ∧
      (⟨fun _ _ => true, fun _ => true, fun _ => true, fun _ => false,
        false⟩ : OrchEnv).captionedExists 0 = false) ∧
    main_workflow_stage56
      ⟨fun _ _ => true, fun _ => true, fun _ => true, fun _ => false, false⟩
      [⟨"x".data, 0, 1⟩] [⟨"a".data, 0, 1⟩] = [ClipPath.formatted 0] := by
  refine ⟨⟨?_, rfl⟩, ?_⟩
  · norm_num +decide [adjusted_transcription_segments, strip, List.filter,
      List.filterMap, List.dropWhile, Char.isWhitespace]
  · norm_num [main_workflow_stage56, stage5, stage6, stage6Step,
      adjusted_transcription_segments, strip, List.filter, List.filterMap,
      List.enum, List.enumFrom, List.dropWhile]

/-- C4 (amended): when a record that reaches the captioning stage sees
captioning fail (no captioned output file) or an empty caption set, the
record is NOT dropped — it stays in the working set with the uncaptioned
aspect-ratio-converted file as its final artifact, and that formatted path
appears in the final output list. -/
theorem C4_captioning_keeps_record (env : OrchEnv) (transcript : List TSeg)
    (r : ClipRecord)
    (hraw : r.rawClipPath.isNone = false)
    (hex : env.rawExists r.idx = true)
    (hconv : env.convertOk r.idx = true)
    (hskip : env.skipCaptioning = false)
    (hfail : env.captionedExists r.idx = false ∨
      adjusted_transcription_segments r.seg.start r.seg.stop
        transcript = []) :
    stage6Step env transcript r =
      some { r with finalClipPath := some (ClipPath.formatted r.idx) } ∧
    ∀ records, r ∈ records →
      ClipPath.formatted r.idx ∈
        (stage6 env transcript records).filterMap (·.finalClipPath) := by
  have hcur : (if env.skipCaptioning then ClipPath.formatted r.idx
      else if adjusted_transcription_segments r.seg.start r.seg.stop
          transcript = [] then ClipPath.formatted r.idx
        else if env.captionedExists r.idx then ClipPath.captioned r.idx
        else ClipPath.formatted r.idx) = ClipPath.formatted r.idx := by
    rw [if_neg (by simp [hskip])]
    rcases hfail with hf | hf
    · by_cases hadj : adjusted_transcription_segments r.seg.start
          r.seg.stop transcript = []
      · rw [if_pos hadj]
      · rw [if_neg hadj, if_neg (by simp [hf])]
    · rw [if_pos hf]
  have hstep : stage6Step env transcript r =
      some { r with finalClipPath := some (ClipPath.formatted r.idx) } := by
    unfold stage6Step
    rw [if_neg (by simp [hraw, hex]), if_pos hconv]
    simp only [hcur]
  refine ⟨hstep, ?_⟩
  intro records hr
  have h2 : { r with finalClipPath := some (ClipPath.formatted r.idx) } ∈
      stage6 env transcript records :=
    List.mem_filterMap.mpr ⟨r, hr, hstep⟩
  exact List.mem_filterMap.mpr ⟨_, h2, rfl⟩

/-- C4 witness: the amended claim at a concrete record whose captioning
fails. -/
theorem C4_captioning_keeps_record_witness :
    ((⟨⟨"a".data, 0, 1⟩, 0, some (.raw 0), none⟩ :
        ClipRecord).rawClipPath.isNone = false ∧
      ((⟨fun _ _ => true, fun _ => true, fun _ => true, fun _ => false,
        false⟩ : OrchEnv)).captionedExists 0 = false) ∧
    stage6Step
      ⟨fun _ _ => true, fun _ => true, fun _ => true, fun _ => false, false⟩
      [⟨"x".data, 0, 1⟩] ⟨⟨"a".data, 0, 1⟩, 0, some (.raw 0), none⟩ =
      some ⟨⟨"a".data, 0, 1⟩, 0, some (.raw 0),
        some (ClipPath.formatted 0)⟩ := by
  refine ⟨⟨rfl, rfl⟩, ?_⟩
  exact (C4_captioning_keeps_record
    ⟨fun _ _ => true, fun _ => true, fun _ => true, fun _ => false, false⟩
    [⟨"x".data, 0, 1⟩] ⟨⟨"a".data, 0, 1⟩, 0, some (.raw 0), none⟩
    rfl rfl rfl rfl (Or.inl rfl)).1

end Clipify
